import Mathlib

/-!
Verification of the `sam_declare` pipeline (`src/tools/sam_declare/sam_declare.py`).

This development shallowly embeds the pure data transformations and the
per-worker control flow of the two-stage declare/transfer pipeline:

* filename rewriting (`get_filename`) and the virtual-file test
  (`is_virtual_file`), embedded over `List Char` with the Python
  `str.replace` (left-to-right, non-overlapping) semantics;
* the declare-worker loop body (`_declare_callback`), including the
  Python scoping of the local variable `is_virtual`, which is assigned
  only in the success branch of the `try` block;
* the transfer-worker loop body (`_transfer_callback`) with its copy
  status check, cleanup logic and exception handling;
* the call expressions of the non-recursive entrypoint, checked against
  the callee signatures with the Python positional/keyword binding rules;
* the discoverer (`rglob` with pattern `*[!json]` plus the in-loop
  filters) over an abstract directory tree;
* the worker-pool spawning policy of `main`;
* the declare-worker rate limiter, over exact rational arithmetic.

External collaborators (SAM catalog, ifdh copy, the filesystem) are
modelled as explicit outcome parameters: each theorem quantifies over
every outcome the external call can produce at its call site.
-/

/-! ## Python `str.replace` over `List Char`

`replaceAllAux pat rep skip s` scans `s` left to right; `skip` counts
characters still to be consumed by a match already emitted.  This is
structurally recursive in `s`, so concrete runs reduce by `rfl`/`decide`.
-/

def leadsWith : List Char → List Char → Bool
  | [], _ => true
  | _ :: _, [] => false
  | p :: ps, c :: cs => if p = c then leadsWith ps cs else false

def replaceAllAux (pat rep : List Char) : Nat → List Char → List Char
  | _, [] => []
  | 0, c :: t =>
      if leadsWith pat (c :: t) then rep ++ replaceAllAux pat rep (pat.length - 1) t
      else c :: replaceAllAux pat rep 0 t
  | k + 1, _ :: t => replaceAllAux pat rep k t

/-- The Python method `s.replace(pat, rep)`: replace every occurrence
of `pat`, scanning left to right, never rescanning replacement text. -/
def replaceAll (pat rep : List Char) (s : List Char) : List Char :=
  replaceAllAux pat rep 0 s

theorem replaceAllAux_skip (pat rep : List Char) :
    ∀ (s : List Char) (k : Nat), replaceAllAux pat rep k s = replaceAll pat rep (s.drop k) := by
  intro s
  induction s with
  | nil => intro k; cases k <;> rfl
  | cons c t ih =>
      intro k
      cases k with
      | zero => rfl
      | succ k => simpa [replaceAllAux] using ih k

theorem replaceAll_nil (pat rep : List Char) : replaceAll pat rep [] = [] := rfl

theorem replaceAll_pos (pat rep : List Char) (c : Char) (t : List Char)
    (hp : pat ≠ []) (h : leadsWith pat (c :: t) = true) :
    replaceAll pat rep (c :: t) = rep ++ replaceAll pat rep ((c :: t).drop pat.length) := by
  show replaceAllAux pat rep 0 (c :: t) = _
  rw [replaceAllAux, if_pos h, replaceAllAux_skip]
  cases hpat : pat with
  | nil => exact absurd hpat hp
  | cons p ps => simp [hpat]

theorem replaceAll_neg (pat rep : List Char) (c : Char) (t : List Char)
    (h : leadsWith pat (c :: t) = false) :
    replaceAll pat rep (c :: t) = c :: replaceAll pat rep t := by
  show replaceAllAux pat rep 0 (c :: t) = _
  rw [replaceAllAux, if_neg (by simp [h])]
  rfl

theorem replaceAll_match (pat rep s : List Char)
    (hp : pat ≠ []) (h : leadsWith pat s = true) :
    replaceAll pat rep s = rep ++ replaceAll pat rep (s.drop pat.length) := by
  cases s with
  | nil =>
      cases hpat : pat with
      | nil => exact absurd hpat hp
      | cons p ps => rw [hpat] at h; simp [leadsWith] at h
  | cons c t => exact replaceAll_pos pat rep c t hp h

theorem leadsWith_cons (a c : Char) (ws cs : List Char) :
    leadsWith (a :: ws) (c :: cs) = true ↔ a = c ∧ leadsWith ws cs = true := by
  by_cases h : a = c <;> simp [leadsWith, h]

theorem leadsWith_append_self : ∀ (w t : List Char), leadsWith w (w ++ t) = true
  | [], _ => rfl
  | a :: ws, t => by simp [leadsWith, leadsWith_append_self ws t]

theorem leadsWith_eq_append {w s : List Char} (h : leadsWith w s = true) :
    ∃ t, s = w ++ t := by
  induction w generalizing s with
  | nil => exact ⟨s, rfl⟩
  | cons a ws ih =>
      cases s with
      | nil => simp [leadsWith] at h
      | cons c cs =>
          obtain ⟨rfl, h2⟩ := (leadsWith_cons a c ws cs).mp h
          obtain ⟨t, rfl⟩ := ih h2
          exact ⟨t, rfl⟩

/-- `mismatchWithin w v = true` iff scanning `w` against `v` hits a character
mismatch before either list runs out. -/
def mismatchWithin : List Char → List Char → Bool
  | [], _ => false
  | _ :: _, [] => false
  | a :: as, b :: bs => if a = b then mismatchWithin as bs else true

theorem leadsWith_false_of_mismatch :
    ∀ (w v : List Char), mismatchWithin w v = true →
      ∀ (x : List Char), leadsWith w (v ++ x) = false
  | [], _, h, _ => by simp [mismatchWithin] at h
  | _ :: _, [], h, _ => by simp [mismatchWithin] at h
  | a :: as, b :: bs, h, x => by
      by_cases hab : a = b
      · subst hab
        simp only [mismatchWithin, if_pos rfl] at h
        simp [leadsWith, leadsWith_false_of_mismatch as bs h x]
      · simp [leadsWith, hab]

/-- Every nonempty suffix of `w` mismatches `rep` within the compared region. -/
def allSuffixClash : List Char → List Char → Bool
  | [], _ => true
  | a :: ws, rep => mismatchWithin (a :: ws) rep && allSuffixClash ws rep

/-- The pattern `pat` mismatches (within the compared region) every
nonempty suffix of `w`, so no occurrence of `pat` can start inside a
leading copy of `w`. -/
def noMatchIn (pat : List Char) : List Char → Bool
  | [] => true
  | a :: ws => mismatchWithin pat (a :: ws) && noMatchIn pat ws

/-- Pull a `leadsWith` fact back through `replaceAll`: if every nonempty
suffix of `w` clashes with the replacement text, an output that starts
with `w` must come from an input that starts with `w`. -/
theorem leadsWith_of_replaceAll (pat rep : List Char) (hp : pat ≠ []) :
    ∀ (s w : List Char), allSuffixClash w rep = true →
      leadsWith w (replaceAll pat rep s) = true → leadsWith w s = true := by
  intro s
  induction s with
  | nil => intro w _ h; simpa [replaceAll_nil] using h
  | cons c t ih =>
      intro w hclash h
      cases w with
      | nil => rfl
      | cons a ws =>
          simp only [allSuffixClash, Bool.and_eq_true] at hclash
          by_cases hm : leadsWith pat (c :: t) = true
          · rw [replaceAll_pos pat rep c t hp hm,
              leadsWith_false_of_mismatch (a :: ws) rep hclash.1] at h
            exact absurd h (by simp)
          · rw [replaceAll_neg pat rep c t (by simpa using hm)] at h
            obtain ⟨rfl, h2⟩ := (leadsWith_cons a c ws _).mp h
            exact (leadsWith_cons a a ws t).mpr ⟨rfl, ih ws hclash.2 h2⟩

/-- If no occurrence of `pat` can start inside the leading copy of `w`,
`replaceAll` copies `w` verbatim. -/
theorem replaceAll_append_of_noMatchIn (pat rep : List Char) :
    ∀ (w t : List Char), noMatchIn pat w = true →
      replaceAll pat rep (w ++ t) = w ++ replaceAll pat rep t := by
  intro w
  induction w with
  | nil => intro t _; rfl
  | cons a ws ih =>
      intro t hw
      simp only [noMatchIn, Bool.and_eq_true] at hw
      rw [List.cons_append,
        replaceAll_neg pat rep a (ws ++ t)
          (by simpa using leadsWith_false_of_mismatch pat (a :: ws) hw.1 t),
        ih t hw.2]
      rfl

/-- When the replaced word `w` neither reappears in the replacement text nor
overlaps an occurrence of `pat`, `replaceAll` preserves `leadsWith w`. -/
theorem allSuffixClash_self (w rep : List Char) (hw : w ≠ [])
    (hclash : allSuffixClash w rep = true) : mismatchWithin w rep = true := by
  cases w with
  | nil => exact absurd rfl hw
  | cons a ws =>
      simp only [allSuffixClash, Bool.and_eq_true] at hclash
      exact hclash.1

theorem leadsWith_replaceAll_eq (pat rep w : List Char) (hp : pat ≠ [])
    (hclash : allSuffixClash w rep = true) (hno : noMatchIn pat w = true)
    (s : List Char) :
    leadsWith w (replaceAll pat rep s) = leadsWith w s := by
  cases h : leadsWith w s with
  | false =>
      cases h2 : leadsWith w (replaceAll pat rep s) with
      | false => rfl
      | true =>
          exact absurd (leadsWith_of_replaceAll pat rep hp s w hclash h2) (by simp [h])
  | true =>
      obtain ⟨t, rfl⟩ := leadsWith_eq_append h
      rw [replaceAll_append_of_noMatchIn pat rep w t hno]
      exact leadsWith_append_self w _

/-- If every nonempty suffix of `pat` clashes with `rep`, the output of
`replaceAll pat rep` never starts with `pat`. -/
theorem not_leadsWith_pat_replaceAll (pat rep : List Char) (hp : pat ≠ [])
    (hclash : allSuffixClash pat rep = true) (s : List Char) :
    leadsWith pat (replaceAll pat rep s) = false := by
  cases h : leadsWith pat (replaceAll pat rep s) with
  | false => rfl
  | true =>
      exfalso
      have hs := leadsWith_of_replaceAll pat rep hp s pat hclash h
      obtain ⟨t, rfl⟩ := leadsWith_eq_append hs
      rw [replaceAll_match pat rep (pat ++ t) hp (leadsWith_append_self pat t),
        leadsWith_false_of_mismatch pat rep (allSuffixClash_self pat rep hp hclash)] at h
      exact absurd h (by simp)

/-! ## Filename rewriting and virtual files (source lines 102-107, 227-228)

`get_filename` rewrites the basename by the chained substitutions
`reco1 → stage0`, `reco2 → stage1`, `Supplemental → hist`;
`is_virtual_file` tests whether the basename starts with `stage1` or
`reco2`.  Paths are modelled as parent components plus basename.
-/

def reco1W : List Char := ['r', 'e', 'c', 'o', '1']
def stage0W : List Char := ['s', 't', 'a', 'g', 'e', '0']
def reco2W : List Char := ['r', 'e', 'c', 'o', '2']
def stage1W : List Char := ['s', 't', 'a', 'g', 'e', '1']
def supplementalW : List Char :=
  ['S', 'u', 'p', 'p', 'l', 'e', 'm', 'e', 'n', 't', 'a', 'l']
def histW : List Char := ['h', 'i', 's', 't']

structure PyPath where
  parent : List (List Char)
  base : List Char
deriving DecidableEq

/-- `get_filename`: the basename is rewritten by the chained
substitutions reco1 to stage0, then reco2 to stage1, then Supplemental
to hist, and reattached to the parent directory. -/
def get_filename (p : PyPath) : PyPath :=
  { parent := p.parent,
    base := replaceAll supplementalW histW
      (replaceAll reco2W stage1W (replaceAll reco1W stage0W p.base)) }

/-- `is_virtual_file`: the basename starts with stage1 or with reco2. -/
def is_virtual_file (p : PyPath) : Bool :=
  leadsWith stage1W p.base || leadsWith reco2W p.base

theorem r1_stage1 (s : List Char) :
    leadsWith stage1W (replaceAll reco1W stage0W s) = leadsWith stage1W s :=
  leadsWith_replaceAll_eq _ _ _ (by decide) (by decide) (by decide) s

theorem r1_reco2 (s : List Char) :
    leadsWith reco2W (replaceAll reco1W stage0W s) = leadsWith reco2W s :=
  leadsWith_replaceAll_eq _ _ _ (by decide) (by decide) (by decide) s

theorem r3_stage1 (s : List Char) :
    leadsWith stage1W (replaceAll supplementalW histW s) = leadsWith stage1W s :=
  leadsWith_replaceAll_eq _ _ _ (by decide) (by decide) (by decide) s

theorem r3_reco2 (s : List Char) :
    leadsWith reco2W (replaceAll supplementalW histW s) = leadsWith reco2W s :=
  leadsWith_replaceAll_eq _ _ _ (by decide) (by decide) (by decide) s

theorem r2_reco2 (s : List Char) :
    leadsWith reco2W (replaceAll reco2W stage1W s) = false :=
  not_leadsWith_pat_replaceAll _ _ (by decide) (by decide) s

theorem r2_stage1 (s : List Char) :
    leadsWith stage1W (replaceAll reco2W stage1W s) =
      (leadsWith stage1W s || leadsWith reco2W s) := by
  rw [Bool.eq_iff_iff]
  simp only [Bool.or_eq_true]
  constructor
  · intro h
    cases s with
    | nil => simp [replaceAll_nil, leadsWith] at h
    | cons c t =>
        by_cases hm : leadsWith reco2W (c :: t) = true
        · exact Or.inr hm
        · rw [replaceAll_neg reco2W stage1W c t (by simpa using hm)] at h
          obtain ⟨hc, h2⟩ := (leadsWith_cons 's' c _ _).mp h
          subst hc
          refine Or.inl ?_
          exact (leadsWith_cons 's' 's' _ t).mpr
            ⟨rfl, leadsWith_of_replaceAll reco2W stage1W (by decide) t _ (by decide) h2⟩
  · rintro (h | h)
    · obtain ⟨t, rfl⟩ := leadsWith_eq_append h
      rw [replaceAll_append_of_noMatchIn reco2W stage1W stage1W t (by decide)]
      exact leadsWith_append_self _ _
    · obtain ⟨t, rfl⟩ := leadsWith_eq_append h
      rw [show reco2W ++ t = 'r' :: (['e', 'c', 'o', '2'] ++ t) from rfl,
        replaceAll_pos reco2W stage1W 'r' (['e', 'c', 'o', '2'] ++ t)
          (by decide) (leadsWith_append_self reco2W t)]
      exact leadsWith_append_self stage1W _

/-- C10: virtual classification is stable under the public-name rewriting
of `get_filename`: the check of the declare worker on the original name
and the check inside `declare_file` on the rewritten name always agree. -/
theorem virtual_stable_under_rewrite (p : PyPath) :
    is_virtual_file (get_filename p) = is_virtual_file p := by
  unfold is_virtual_file get_filename
  simp only [r3_stage1, r3_reco2, r2_stage1, r2_reco2, r1_stage1, r1_reco2]
  simp

/-! ## Items, queues, and the declare worker (source lines 302-368)

A declare worker pops `FileItem`s, calls `declare_file`, classifies the
outcome by the exception raised (if any), and pushes either the item or a
`HEARTBEAT` sentinel onto the transfer queue.  The catalog behaviour at
each call is an explicit `DeclareOutcome` parameter.

The Python local `is_virtual` is assigned only at line 329, inside the
`try` block after `declare_file` returns; the `except FileAlreadyExists`
branch at lines 334-341 reads it.  The model carries it as an
`Option Bool` (`none` = not yet bound in this function invocation;
reading `none` raises `UnboundLocalError`, which no handler catches).
-/

inductive QItem where
  | file (p : PyPath)
  | heartbeat
deriving DecidableEq

inductive DeclareOutcome where
  | declared
  | fileAlreadyExists
  | metadataNotFound
  | invalidMetadata
  | fileNotFound
deriving DecidableEq

inductive PyExc where
  | unboundLocalError
  | fileNotFoundError
deriving DecidableEq

structure DeclareState where
  is_virtual : Option Bool
  transfers : List QItem
  ndeclared : Nat
  nskip : Nat
deriving DecidableEq

def initDeclareState : DeclareState :=
  { is_virtual := none, transfers := [], ndeclared := 0, nskip := 0 }

/-- One iteration of the `while` loop of `_declare_callback`, given the
popped item and the outcome of its `declare_file` call. -/
def declare_callback_step (item : PyPath) (outcome : DeclareOutcome)
    (st : DeclareState) : Except PyExc DeclareState :=
  match outcome with
  | .declared =>
      let iv := is_virtual_file item
      let st1 : DeclareState :=
        { st with ndeclared := st.ndeclared + 1, is_virtual := some iv }
      .ok (if iv then st1
           else { st1 with transfers := st1.transfers ++ [QItem.file item] })
  | .fileAlreadyExists =>
      match st.is_virtual with
      | none => .error .unboundLocalError
      | some iv =>
          let st1 : DeclareState :=
            if iv then st
            else { st with transfers := st.transfers ++ [QItem.file item] }
          .ok { st1 with nskip := st1.nskip + 1 }
  | .metadataNotFound =>
      .ok { st with transfers := st.transfers ++ [QItem.heartbeat],
                    nskip := st.nskip + 1 }
  | .invalidMetadata =>
      .ok { st with transfers := st.transfers ++ [QItem.heartbeat],
                    nskip := st.nskip + 1 }
  | .fileNotFound =>
      .ok { st with transfers := st.transfers ++ [QItem.heartbeat],
                    nskip := st.nskip + 1 }

/-- The declare worker loop over the items it pops (with the catalog
outcome of each).  An uncaught exception ends the worker; queue pushes
made before it remain. -/
def declare_callback_run :
    List (PyPath × DeclareOutcome) → DeclareState → DeclareState × Option PyExc
  | [], st => (st, none)
  | (it, oc) :: rest, st =>
      match declare_callback_step it oc st with
      | .ok st1 => declare_callback_run rest st1
      | .error e => (st, some e)

def fileA : PyPath := ⟨[], ['d', 'a', 't', 'a', '.', 'r', 'o', 'o', 't']⟩

def fileV : PyPath := ⟨[], reco2W ++ ['.', 'r', 'o', 'o', 't']⟩

/-- C1: the claimed invariant fails on the code.  A declare worker that
successfully declares a non-virtual item and then pops a virtual item
whose declaration reports `FileAlreadyExists` pushes the virtual item
onto the transfer queue: the `except` branch reads the stale `is_virtual`
left over from the previous iteration. -/
theorem virtual_item_forwarded_on_stale_duplicate :
    is_virtual_file fileV = true ∧
      QItem.file fileV ∈
        (declare_callback_run
          [(fileA, DeclareOutcome.declared), (fileV, DeclareOutcome.fileAlreadyExists)]
          initDeclareState).1.transfers := by decide

/-- C2: a duplicate-registration outcome is not treated like a fresh
success.  If the first item a worker processes reports
`FileAlreadyExists`, the `except` branch reads the never-assigned local
`is_virtual`, raising `UnboundLocalError`: the worker terminates and the
non-virtual item is never pushed onto the transfer queue. -/
theorem duplicate_on_first_item_crashes_worker :
    is_virtual_file fileA = false ∧
      declare_callback_run [(fileA, DeclareOutcome.fileAlreadyExists)] initDeclareState =
        (initDeclareState, some PyExc.unboundLocalError) := by decide

/-! ## The transfer worker (source lines 261-299)

A transfer worker pops items with `_queue.get(timeout=30)`, discards the
`HEARTBEAT` sentinel, copies real items with `ifdh_cp`, and — when the
copy status is `0` or `17` and the `-d` flag was given — unlinks the
source file (tolerating only `PermissionError`) and its metadata sidecar
(tolerating `FileNotFoundError` and `PermissionError`).

The copy status and the outcome of each `unlink` call are environment
parameters of the step.  The loop is modelled over a time-ordered list of
queue arrivals: a pop succeeds iff the next arrival falls within the
30-second window starting at the current wait; item processing time is
idealized to zero, which leaves the claims about the heartbeat window
unaffected since the heartbeat branch performs no external call.
-/

inductive UnlinkOutcome where
  | ok
  | notFound
  | permDenied
deriving DecidableEq

structure TransferEnv where
  copyResult : Int
  srcUnlink : UnlinkOutcome
  metaUnlink : UnlinkOutcome
deriving DecidableEq

structure TransferEffects where
  copyCalled : Bool
  srcUnlinkAttempted : Bool
  srcDeleted : Bool
  metaUnlinkAttempted : Bool
  metaDeleted : Bool
deriving DecidableEq

def noTransferEffects : TransferEffects :=
  { copyCalled := false, srcUnlinkAttempted := false, srcDeleted := false,
    metaUnlinkAttempted := false, metaDeleted := false }

/-- One iteration of the `while` loop of `_transfer_callback` on a popped
item, returning what it did to the filesystem and the uncaught exception,
if any. -/
def transfer_callback_step (deleteFlag : Bool) (it : QItem) (env : TransferEnv) :
    TransferEffects × Option PyExc :=
  match it with
  | .heartbeat => (noTransferEffects, none)
  | .file _ =>
      if env.copyResult ≠ 0 ∧ env.copyResult ≠ 17 then
        ({ noTransferEffects with copyCalled := true }, none)
      else if !deleteFlag then
        ({ noTransferEffects with copyCalled := true }, none)
      else
        match env.srcUnlink with
        | .notFound =>
            ({ copyCalled := true, srcUnlinkAttempted := true, srcDeleted := false,
               metaUnlinkAttempted := false, metaDeleted := false },
             some .fileNotFoundError)
        | .ok =>
            ({ copyCalled := true, srcUnlinkAttempted := true, srcDeleted := true,
               metaUnlinkAttempted := true,
               metaDeleted := env.metaUnlink == UnlinkOutcome.ok }, none)
        | .permDenied =>
            ({ copyCalled := true, srcUnlinkAttempted := true, srcDeleted := false,
               metaUnlinkAttempted := true,
               metaDeleted := env.metaUnlink == UnlinkOutcome.ok }, none)

structure Arrival where
  time : ℚ
  item : QItem
  env : TransferEnv
deriving DecidableEq

/-- The transfer worker loop: starting a `get(timeout=30)` at time `t`,
pop the next arrival if it lands within the window, process it, and
recurse from the pop time; exit on an empty window or an uncaught
exception.  Returns the per-item effect records and the exception. -/
def transfer_callback_loop (deleteFlag : Bool) :
    ℚ → List Arrival → List TransferEffects × Option PyExc
  | _, [] => ([], none)
  | t, a :: rest =>
      if a.time ≤ t + 30 then
        match transfer_callback_step deleteFlag a.item a.env with
        | (eff, some e) => ([eff], some e)
        | (eff, none) =>
            let r := transfer_callback_loop deleteFlag (max t a.time) rest
            (eff :: r.1, r.2)
      else ([], none)

/-- C3: with an environment in which both `unlink` calls would succeed,
the source file and its sidecar are deleted iff the copy returned `0` or
`17` and cleanup was requested; on any other status the step performs no
filesystem action at all beyond the copy call, and raises nothing. -/
theorem transfer_cleanup_iff (deleteFlag : Bool) (p : PyPath) (env : TransferEnv)
    (hsrc : env.srcUnlink = UnlinkOutcome.ok)
    (hmeta : env.metaUnlink = UnlinkOutcome.ok) :
    (((transfer_callback_step deleteFlag (QItem.file p) env).1.srcDeleted = true ∧
      (transfer_callback_step deleteFlag (QItem.file p) env).1.metaDeleted = true) ↔
      ((env.copyResult = 0 ∨ env.copyResult = 17) ∧ deleteFlag = true)) ∧
    (¬(env.copyResult = 0 ∨ env.copyResult = 17) →
      transfer_callback_step deleteFlag (QItem.file p) env =
        ({ noTransferEffects with copyCalled := true }, none)) := by
  constructor
  · by_cases hc : env.copyResult = 0 ∨ env.copyResult = 17
    · cases deleteFlag with
      | false => simp [transfer_callback_step, noTransferEffects, hc,
          show ¬(env.copyResult ≠ 0 ∧ env.copyResult ≠ 17) by tauto]
      | true => simp [transfer_callback_step, hsrc, hmeta, hc, show ¬(env.copyResult ≠ 0 ∧
          env.copyResult ≠ 17) by tauto]
    · simp [transfer_callback_step, noTransferEffects, hc,
        show env.copyResult ≠ 0 ∧ env.copyResult ≠ 17 by tauto]
  · intro hc
    simp [transfer_callback_step, show env.copyResult ≠ 0 ∧ env.copyResult ≠ 17 by tauto]

theorem transfer_cleanup_iff_witness :
    ((⟨0, .ok, .ok⟩ : TransferEnv).srcUnlink = UnlinkOutcome.ok) ∧
    ((((transfer_callback_step true (QItem.file fileA) ⟨0, .ok, .ok⟩).1.srcDeleted = true ∧
       (transfer_callback_step true (QItem.file fileA) ⟨0, .ok, .ok⟩).1.metaDeleted = true) ↔
       (((⟨0, .ok, .ok⟩ : TransferEnv).copyResult = 0 ∨
         (⟨0, .ok, .ok⟩ : TransferEnv).copyResult = 17) ∧ true = true)) ∧
     (¬((⟨0, .ok, .ok⟩ : TransferEnv).copyResult = 0 ∨
        (⟨0, .ok, .ok⟩ : TransferEnv).copyResult = 17) →
       transfer_callback_step true (QItem.file fileA) ⟨0, .ok, .ok⟩ =
         ({ noTransferEffects with copyCalled := true }, none))) :=
  ⟨rfl, transfer_cleanup_iff true fileA ⟨0, .ok, .ok⟩ rfl rfl⟩

/-- C4: a heartbeat popped within the timeout window contributes no copy
call, no unlink, and no exception — the step returns the empty effect
record — and the loop continues exactly as a fresh loop whose 30-second
idle window starts at the pop time. -/
theorem heartbeat_no_effects_resets_window (deleteFlag : Bool) (t : ℚ)
    (a : Arrival) (rest : List Arrival) (hw : a.time ≤ t + 30)
    (hhb : a.item = QItem.heartbeat) :
    transfer_callback_step deleteFlag a.item a.env = (noTransferEffects, none) ∧
    transfer_callback_loop deleteFlag t (a :: rest) =
      (noTransferEffects :: (transfer_callback_loop deleteFlag (max t a.time) rest).1,
       (transfer_callback_loop deleteFlag (max t a.time) rest).2) := by
  constructor
  · rw [hhb]; rfl
  · rw [transfer_callback_loop, if_pos hw]
    split
    · rename_i eff e heq
      rw [hhb] at heq
      cases heq
    · rename_i eff heq
      rw [hhb] at heq
      injection heq with h1 _
      rw [← h1]

theorem heartbeat_no_effects_resets_window_witness :
    ((10 : ℚ) ≤ 0 + 30) ∧
    (transfer_callback_step true (QItem.heartbeat) ⟨0, .ok, .ok⟩ =
       (noTransferEffects, none) ∧
     transfer_callback_loop true 0 [⟨10, QItem.heartbeat, ⟨0, .ok, .ok⟩⟩] =
       (noTransferEffects ::
          (transfer_callback_loop true (max 0 10) []).1,
        (transfer_callback_loop true (max 0 10) []).2)) :=
  ⟨by norm_num,
   heartbeat_no_effects_resets_window true 0 ⟨10, QItem.heartbeat, ⟨0, .ok, .ok⟩⟩ []
     (by norm_num) rfl⟩

/-- C9: the transfer step raises an uncaught exception exactly when
cleanup is attempted and the source unlink reports the file missing (the
`try` around `item.unlink()` catches only `PermissionError`); a denied
source unlink, and any sidecar unlink outcome, are tolerated — the step
still attempts the sidecar unlink and raises nothing. -/
theorem src_unlink_notFound_uncaught (deleteFlag : Bool) (p : PyPath)
    (env : TransferEnv) :
    ((transfer_callback_step deleteFlag (QItem.file p) env).2 =
        some PyExc.fileNotFoundError ↔
      ((env.copyResult = 0 ∨ env.copyResult = 17) ∧ deleteFlag = true ∧
        env.srcUnlink = UnlinkOutcome.notFound)) ∧
    (((env.copyResult = 0 ∨ env.copyResult = 17) ∧ deleteFlag = true ∧
        env.srcUnlink = UnlinkOutcome.permDenied) →
      transfer_callback_step deleteFlag (QItem.file p) env =
        ({ copyCalled := true, srcUnlinkAttempted := true, srcDeleted := false,
           metaUnlinkAttempted := true,
           metaDeleted := env.metaUnlink == UnlinkOutcome.ok }, none)) := by
  constructor
  · by_cases hc : env.copyResult = 0 ∨ env.copyResult = 17
    · cases deleteFlag with
      | false => simp [transfer_callback_step, hc, show ¬(env.copyResult ≠ 0 ∧
          env.copyResult ≠ 17) by tauto]
      | true =>
          cases hsrc : env.srcUnlink <;>
            simp [transfer_callback_step, hc, hsrc, show ¬(env.copyResult ≠ 0 ∧
              env.copyResult ≠ 17) by tauto]
    · simp [transfer_callback_step, hc, show env.copyResult ≠ 0 ∧ env.copyResult ≠ 17 by tauto]
  · rintro ⟨hc, hd, hsrc⟩
    subst hd
    simp [transfer_callback_step, hsrc, show ¬(env.copyResult ≠ 0 ∧
      env.copyResult ≠ 17) by tauto]

theorem src_unlink_notFound_uncaught_witness :
    ((transfer_callback_step true (QItem.file fileA) ⟨0, .notFound, .ok⟩).2 =
        some PyExc.fileNotFoundError ↔
      (((⟨0, .notFound, .ok⟩ : TransferEnv).copyResult = 0 ∨
        (⟨0, .notFound, .ok⟩ : TransferEnv).copyResult = 17) ∧ true = true ∧
        (⟨0, .notFound, .ok⟩ : TransferEnv).srcUnlink = UnlinkOutcome.notFound)) ∧
    ((((⟨0, .notFound, .ok⟩ : TransferEnv).copyResult = 0 ∨
       (⟨0, .notFound, .ok⟩ : TransferEnv).copyResult = 17) ∧ true = true ∧
       (⟨0, .notFound, .ok⟩ : TransferEnv).srcUnlink = UnlinkOutcome.permDenied) →
      transfer_callback_step true (QItem.file fileA) ⟨0, .notFound, .ok⟩ =
        ({ copyCalled := true, srcUnlinkAttempted := true, srcDeleted := false,
           metaUnlinkAttempted := true,
           metaDeleted := (⟨0, .notFound, .ok⟩ : TransferEnv).metaUnlink ==
             UnlinkOutcome.ok }, none)) :=
  src_unlink_notFound_uncaught true fileA ⟨0, .notFound, .ok⟩

/-! ## Non-recursive mode (source lines 371-377)

`main` without `-R` executes
`declare_file(filename, validate=args.validate, delete=args.delete)` and
then `ifdh_cp(filename, dest, delete=args.delete)`.  Python binds call
arguments against the callee signature before running its body; the
model reproduces that binding for the two call expressions against the
signatures `declare_file(filename, dest, validate=False, delete=False)`
(line 231) and `ifdh_cp(fname, dest_base=None, dest_is_dir=True,
relative_to=None)` (line 253).
-/

structure PyParam where
  pname : String
  hasDefault : Bool
deriving DecidableEq

def declare_file_params : List PyParam :=
  [⟨"filename", false⟩, ⟨"dest", false⟩, ⟨"validate", true⟩, ⟨"delete", true⟩]

def ifdh_cp_params : List PyParam :=
  [⟨"fname", false⟩, ⟨"dest_base", true⟩, ⟨"dest_is_dir", true⟩, ⟨"relative_to", true⟩]

/-- Python argument binding for a call with `npos` positional arguments
and keyword arguments `kws`: raises `TypeError` if a positional argument
overflows the signature, a keyword is unknown or doubly bound, or a
parameter without default stays unbound. -/
def bindCall (params : List PyParam) (npos : Nat) (kws : List String) :
    Except String Unit :=
  if params.length < npos then
    .error "TypeError: too many positional arguments"
  else if kws.any (fun k => !(params.any (fun q => q.pname == k))) then
    .error "TypeError: unexpected keyword argument"
  else if kws.any (fun k => (params.take npos).any (fun q => q.pname == k)) then
    .error "TypeError: multiple values for argument"
  else if (params.drop npos).any (fun q => !q.hasDefault && !(kws.contains q.pname)) then
    .error "TypeError: missing required positional argument"
  else .ok ()

/-- The non-recursive branch of `main` (lines 374-377): bind and run the
`declare_file` call, then bind and run the `ifdh_cp` call, then
`sys.exit(0)` (modelled as normal return). -/
def main_non_recursive : Except String Unit := do
  let _ ← bindCall declare_file_params 1 ["validate", "delete"]
  let _ ← bindCall ifdh_cp_params 2 ["delete"]
  .ok ()

/-- C5: non-recursive mode never reaches the copy, let alone exit code 0:
the `declare_file` call omits the required positional parameter `dest`,
so Python raises `TypeError` before any declare is performed (and the
subsequent `ifdh_cp` call would also fail, passing an unknown keyword
`delete`). -/
theorem nonrecursive_mode_crashes :
    main_non_recursive =
      Except.error "TypeError: missing required positional argument" ∧
    bindCall ifdh_cp_params 2 ["delete"] =
      Except.error "TypeError: unexpected keyword argument" :=
  ⟨rfl, rfl⟩

/-! ## Worker-pool spawning (source lines 33-37, 403-437)

The discovery loop counts qualifying files in `nfiles_reset`; a spawn
round fires when `nfiles_reset > NFILES_MIN` or no declare worker exists
yet, spawns one declare worker and one transfer worker (each unless its
pool is at its ceiling), and resets the counter.
-/

def TRANSFER_NPROCESS_MAX : Nat := 10

def DECLARE_NPROCESS_MAX : Nat := 4

def NFILES_MIN : Nat := 10

structure PoolState where
  nfiles_reset : Nat
  declare_processes : Nat
  transfer_processes : Nat
deriving DecidableEq

def initPoolState : PoolState :=
  { nfiles_reset := 0, declare_processes := 0, transfer_processes := 0 }

/-- The spawning logic executed for one qualifying discovered file: the
counter is incremented, then a spawn round fires if it exceeds
`NFILES_MIN` or no declare worker exists yet. -/
def pool_spawn_step (st : PoolState) : PoolState :=
  if NFILES_MIN < st.nfiles_reset + 1 ∨ st.declare_processes = 0 then
    { nfiles_reset := 0,
      declare_processes :=
        if st.declare_processes < DECLARE_NPROCESS_MAX
        then st.declare_processes + 1 else st.declare_processes,
      transfer_processes :=
        if st.transfer_processes < TRANSFER_NPROCESS_MAX
        then st.transfer_processes + 1 else st.transfer_processes }
  else { st with nfiles_reset := st.nfiles_reset + 1 }

/-- Pool state after the first `n` qualifying files have been discovered. -/
def pool_after (n : Nat) : PoolState :=
  pool_spawn_step^[n] initPoolState

theorem pool_after_small :
    ∀ n, 1 ≤ n → n ≤ NFILES_MIN →
      pool_after n = { nfiles_reset := n - 1, declare_processes := 1,
                       transfer_processes := 1 } := by
  intro n
  induction n with
  | zero => omega
  | succ m ih =>
      intro _ hle
      rw [pool_after, Function.iterate_succ_apply', ← pool_after]
      cases Nat.eq_zero_or_pos m with
      | inl h0 => subst h0; rfl
      | inr h1 =>
          rw [ih h1 (by omega)]
          have hm : ¬(NFILES_MIN < m - 1 + 1 ∨ (1:Nat) = 0) := by
            rw [NFILES_MIN] at hle ⊢
            omega
          simp only [pool_spawn_step, if_neg hm]
          have : m - 1 + 1 = m + 1 - 1 := by omega
          rw [this]

theorem pool_ceiling (n : Nat) :
    (pool_after n).declare_processes ≤ DECLARE_NPROCESS_MAX ∧
    (pool_after n).transfer_processes ≤ TRANSFER_NPROCESS_MAX := by
  induction n with
  | zero => exact ⟨Nat.zero_le _, Nat.zero_le _⟩
  | succ m ih =>
      rw [pool_after, Function.iterate_succ_apply', ← pool_after]
      unfold pool_spawn_step
      split
      · refine ⟨?_, ?_⟩ <;> dsimp only <;> split <;> omega
      · exact ih

/-- C7: with fewer than `NFILES_MIN` files discovered, exactly one
declare worker and one transfer worker are spawned, both already present
after the very first file; and no pool ever exceeds its ceiling. -/
theorem small_batch_single_worker_pair (n : Nat) (h1 : 1 ≤ n)
    (h2 : n < NFILES_MIN) :
    (pool_after 1).declare_processes = 1 ∧
    (pool_after 1).transfer_processes = 1 ∧
    (pool_after n).declare_processes = 1 ∧
    (pool_after n).transfer_processes = 1 ∧
    (1 < DECLARE_NPROCESS_MAX ∧ 1 < TRANSFER_NPROCESS_MAX) ∧
    ∀ m : Nat, (pool_after m).declare_processes ≤ DECLARE_NPROCESS_MAX ∧
      (pool_after m).transfer_processes ≤ TRANSFER_NPROCESS_MAX := by
  rw [pool_after_small n h1 (le_of_lt h2), pool_after_small 1 le_rfl (by decide)]
  exact ⟨rfl, rfl, rfl, rfl, by decide, pool_ceiling⟩

theorem small_batch_single_worker_pair_witness :
    (1 ≤ 3 ∧ 3 < NFILES_MIN) ∧
    ((pool_after 1).declare_processes = 1 ∧
     (pool_after 1).transfer_processes = 1 ∧
     (pool_after 3).declare_processes = 1 ∧
     (pool_after 3).transfer_processes = 1 ∧
     (1 < DECLARE_NPROCESS_MAX ∧ 1 < TRANSFER_NPROCESS_MAX) ∧
     ∀ m : Nat, (pool_after m).declare_processes ≤ DECLARE_NPROCESS_MAX ∧
       (pool_after m).transfer_processes ≤ TRANSFER_NPROCESS_MAX) :=
  ⟨by decide, small_batch_single_worker_pair 3 (by decide) (by decide)⟩

/-! ## The declare-worker rate limiter (source lines 36-38, 355-365)

After each registration attempt, the worker computes
`wait = 1.0 / SAM_RPS_MAX - dt`, where `dt` is the wall-clock duration of
the attempt; if `wait > 0` it multiplies by a draw `u` from
`uniform(1, SMEAR_MAX)` and sleeps that long, otherwise it does not
sleep.  The model is parametric in the ceiling `r` (`SAM_RPS_MAX = 5`),
and quantifies over the random draw `u`.  Time is exact rational
arithmetic.
-/

def SAM_RPS_MAX : ℚ := 5

def SMEAR_MAX : ℚ := 11 / 10

/-- Sleep duration of one gated iteration with ceiling `r`, attempt
duration `dt` and random draw `u`. -/
def rate_limit_wait (r dt u : ℚ) : ℚ :=
  if 0 < 1 / r - dt then (1 / r - dt) * u else 0

/-- Elapsed wall-clock time of a sequence of gated iterations: each
iteration takes its attempt duration plus its sleep. -/
def total_gated_time (r : ℚ) (calls : List (ℚ × ℚ)) : ℚ :=
  (calls.map fun c => c.1 + rate_limit_wait r c.1 c.2).sum

theorem iteration_time_ge (r dt u : ℚ) (hr : 0 < r) (hdt : 0 ≤ dt)
    (hu : 1 ≤ u) : 1 / r ≤ dt + rate_limit_wait r dt u := by
  unfold rate_limit_wait
  split
  · rename_i hw
    have h1 : 1 / r - dt ≤ (1 / r - dt) * u := le_mul_of_one_le_right (le_of_lt hw) hu
    linarith
  · rename_i hw
    push_neg at hw
    linarith

theorem total_gated_time_ge (r : ℚ) (hr : 0 < r) :
    ∀ calls : List (ℚ × ℚ), (∀ c ∈ calls, 0 ≤ c.1 ∧ 1 ≤ c.2) →
      (calls.length : ℚ) / r ≤ total_gated_time r calls := by
  intro calls
  induction calls with
  | nil => intro _; simp [total_gated_time]
  | cons c rest ih =>
      intro h
      have hc := h c (List.mem_cons_self c rest)
      have h1 := iteration_time_ge r c.1 c.2 hr hc.1 hc.2
      have h2 := ih (fun d hd => h d (List.mem_cons_of_mem c hd))
      simp only [total_gated_time, List.map_cons, List.sum_cons, List.length_cons] at h2 ⊢
      push_cast
      rw [add_div]
      linarith

/-- C8: for every smoothing factor `s ≥ 1` and every sequence of draws
`u` from `[1, s]` (the code runs `s = SMEAR_MAX`), each iteration sleeps
`(1/r - dt) * u` exactly when `dt < 1/r` and not at all otherwise; and
since every draw is at least `1`, the elapsed time from the start of the
first of `n` consecutive gated calls to the start of the last — the sum
over all but the last call of duration plus sleep — is at least
`(n - 1) / r`.  With `s = 1` every draw is exactly `1` and the bound is
the claimed consequence. -/
theorem rate_limiter_bound (r s : ℚ) (hr : 0 < r) (hs : 1 ≤ s)
    (calls : List (ℚ × ℚ)) (hdt : ∀ c ∈ calls, 0 ≤ c.1)
    (hu : ∀ c ∈ calls, 1 ≤ c.2 ∧ c.2 ≤ s) :
    (∀ c ∈ calls,
      (c.1 < 1 / r → rate_limit_wait r c.1 c.2 = (1 / r - c.1) * c.2) ∧
      (1 / r ≤ c.1 → rate_limit_wait r c.1 c.2 = 0)) ∧
    ((calls.length - 1 : ℕ) : ℚ) / r ≤ total_gated_time r calls.dropLast := by
  constructor
  · intro c _
    constructor
    · intro hlt
      rw [rate_limit_wait, if_pos (by linarith)]
    · intro hge
      rw [rate_limit_wait, if_neg (by linarith)]
  · have hsub : calls.dropLast.Sublist calls := List.dropLast_sublist calls
    have := total_gated_time_ge r hr calls.dropLast
      (fun c hc => ⟨hdt c (hsub.subset hc), (hu c (hsub.subset hc)).1⟩)
    rwa [List.length_dropLast] at this

theorem rate_limiter_bound_witness :
    ((0 : ℚ) < SAM_RPS_MAX ∧ (1 : ℚ) ≤ SMEAR_MAX) ∧
    ((∀ c ∈ [((0 : ℚ), (1 : ℚ)), (0, 11 / 10)],
       (c.1 < 1 / SAM_RPS_MAX →
         rate_limit_wait SAM_RPS_MAX c.1 c.2 = (1 / SAM_RPS_MAX - c.1) * c.2) ∧
       (1 / SAM_RPS_MAX ≤ c.1 → rate_limit_wait SAM_RPS_MAX c.1 c.2 = 0)) ∧
     ((([((0 : ℚ), (1 : ℚ)), (0, 11 / 10)].length - 1 : ℕ) : ℚ) / SAM_RPS_MAX ≤
       total_gated_time SAM_RPS_MAX [((0 : ℚ), (1 : ℚ)), (0, 11 / 10)].dropLast)) :=
  ⟨⟨by norm_num [SAM_RPS_MAX], by norm_num [SMEAR_MAX]⟩,
   rate_limiter_bound SAM_RPS_MAX SMEAR_MAX (by norm_num [SAM_RPS_MAX])
     (by norm_num [SMEAR_MAX]) [((0 : ℚ), (1 : ℚ)), (0, 11 / 10)]
     (by intro c hc
         simp only [List.mem_cons, List.not_mem_nil, or_false] at hc
         rcases hc with rfl | rfl <;> norm_num)
     (by intro c hc
         simp only [List.mem_cons, List.not_mem_nil, or_false] at hc
         rcases hc with rfl | rfl <;> norm_num [SMEAR_MAX])⟩

/-! ## The discoverer (source lines 386, 403-412)

`main -R` enumerates `filename.rglob` with pattern `*[!json]` — every strict
descendant of the root whose basename ends in a character other than
`j`, `s`, `o`, `n` — then skips entries that are not regular files and
names starting with `Supplemental`, and pushes everything else onto the
declare queue.

The directory tree is a mutual inductive (a node is a file or a
directory with a forest of children); `entriesForest` enumerates all
strict descendants with their directory paths, as `rglob` does, and
`hasEntryForest` is the independent path-directed lookup: entry
`(ds, nm, isf)` exists iff following components `ds` from the root leads
to a child named `nm` of the right kind.  Well-formedness asks sibling
names to be distinct, as on a real filesystem.
-/

mutual
inductive FSTree where
  | file (fname : List Char)
  | dir (dname : List Char) (children : FSForest)
inductive FSForest where
  | nil
  | cons (t : FSTree) (ts : FSForest)
end

structure Entry where
  dirs : List (List Char)
  ename : List Char
  isFile : Bool
deriving DecidableEq

def nodeName : FSTree → List Char
  | .file n => n
  | .dir n _ => n

def namesForest : FSForest → List (List Char)
  | .nil => []
  | .cons t ts => nodeName t :: namesForest ts

mutual
def wfTree : FSTree → Bool
  | .file _ => true
  | .dir _ cs => wfForest cs
def wfForest : FSForest → Bool
  | .nil => true
  | .cons t ts => wfTree t && wfForest ts && decide (nodeName t ∉ namesForest ts)
end

mutual
def entriesTree (pre : List (List Char)) : FSTree → List Entry
  | .file n => [⟨pre, n, true⟩]
  | .dir n cs => ⟨pre, n, false⟩ :: entriesForest (pre ++ [n]) cs
def entriesForest (pre : List (List Char)) : FSForest → List Entry
  | .nil => []
  | .cons t ts => entriesTree pre t ++ entriesForest pre ts
end

mutual
def hasEntryTree : FSTree → List (List Char) → List Char → Bool → Bool
  | .file n, [], nm, isf => nm == n && isf == true
  | .file _, _ :: _, _, _ => false
  | .dir n _, [], nm, isf => nm == n && isf == false
  | .dir n cs, d :: ds, nm, isf => n == d && hasEntryForest cs ds nm isf
def hasEntryForest : FSForest → List (List Char) → List Char → Bool → Bool
  | .nil, _, _, _ => false
  | .cons t ts, ds, nm, isf => hasEntryTree t ds nm isf || hasEntryForest ts ds nm isf
end

mutual
theorem entriesTree_dirs_ext (pre : List (List Char)) (t : FSTree) (e : Entry)
    (h : e ∈ entriesTree pre t) : ∃ suf, e.dirs = pre ++ suf :=
  match t, h with
  | .file n, h => by
      simp only [entriesTree, List.mem_singleton] at h
      exact ⟨[], by simp [h]⟩
  | .dir n cs, h => by
      simp only [entriesTree, List.mem_cons] at h
      rcases h with rfl | h
      · exact ⟨[], by simp⟩
      · obtain ⟨suf, hsuf⟩ := entriesForest_dirs_ext (pre ++ [n]) cs e h
        exact ⟨n :: suf, by simp [hsuf]⟩
theorem entriesForest_dirs_ext (pre : List (List Char)) (ts : FSForest) (e : Entry)
    (h : e ∈ entriesForest pre ts) : ∃ suf, e.dirs = pre ++ suf :=
  match ts, h with
  | .cons t ts, h => by
      simp only [entriesForest, List.mem_append] at h
      rcases h with h | h
      · exact entriesTree_dirs_ext pre t e h
      · exact entriesForest_dirs_ext pre ts e h
end

mutual
theorem mem_entriesTree (t : FSTree) (pre ds : List (List Char)) (nm : List Char)
    (isf : Bool) :
    (⟨pre ++ ds, nm, isf⟩ : Entry) ∈ entriesTree pre t ↔
      hasEntryTree t ds nm isf = true :=
  match t with
  | .file n => by
      cases ds with
      | nil => simp [entriesTree, hasEntryTree, Entry.mk.injEq]
      | cons d ds => simp [entriesTree, hasEntryTree, Entry.mk.injEq]
  | .dir n cs => by
      cases ds with
      | nil =>
          simp only [entriesTree, List.mem_cons, Entry.mk.injEq, List.append_nil,
            hasEntryTree, Bool.and_eq_true, beq_iff_eq]
          constructor
          · rintro (⟨_, rfl, rfl⟩ | hmem)
            · exact ⟨rfl, rfl⟩
            · obtain ⟨suf, hsuf⟩ := entriesForest_dirs_ext (pre ++ [n]) cs _ hmem
              simp at hsuf
          · rintro ⟨rfl, rfl⟩
            exact Or.inl (by simp)
      | cons d ds =>
          simp only [entriesTree, List.mem_cons, Entry.mk.injEq, hasEntryTree,
            Bool.and_eq_true, beq_iff_eq]
          constructor
          · rintro (⟨habs, _, _⟩ | hmem)
            · exact absurd habs (by simp)
            · obtain ⟨suf, hsuf⟩ := entriesForest_dirs_ext (pre ++ [n]) cs _ hmem
              simp only [List.append_assoc, List.singleton_append] at hsuf
              have h2 := List.append_cancel_left hsuf
              injection h2 with hdn hds
              subst hdn
              subst hds
              rw [show pre ++ d :: ds = (pre ++ [d]) ++ ds by simp] at hmem
              exact ⟨rfl, (mem_entriesForest cs (pre ++ [d]) ds nm isf).mp hmem⟩
          · rintro ⟨rfl, hhas⟩
            refine Or.inr ?_
            have h3 := (mem_entriesForest cs (pre ++ [n]) ds nm isf).mpr hhas
            rw [show (pre ++ [n]) ++ ds = pre ++ n :: ds by simp] at h3
            exact h3
theorem mem_entriesForest (ts : FSForest) (pre ds : List (List Char)) (nm : List Char)
    (isf : Bool) :
    (⟨pre ++ ds, nm, isf⟩ : Entry) ∈ entriesForest pre ts ↔
      hasEntryForest ts ds nm isf = true :=
  match ts with
  | .nil => by simp [entriesForest, hasEntryForest]
  | .cons t ts => by
      simp only [entriesForest, List.mem_append, hasEntryForest, Bool.or_eq_true]
      exact or_congr (mem_entriesTree t pre ds nm isf) (mem_entriesForest ts pre ds nm isf)
end

theorem entriesTree_shape (pre : List (List Char)) (t : FSTree) (e : Entry)
    (h : e ∈ entriesTree pre t) :
    (e.dirs = pre ∧ e.ename = nodeName t) ∨ ∃ suf, e.dirs = pre ++ nodeName t :: suf :=
  match t, h with
  | .file n, h => by
      simp only [entriesTree, List.mem_singleton] at h
      subst h
      exact Or.inl ⟨rfl, rfl⟩
  | .dir n cs, h => by
      simp only [entriesTree, List.mem_cons] at h
      rcases h with rfl | h
      · exact Or.inl ⟨rfl, rfl⟩
      · obtain ⟨suf, hsuf⟩ := entriesForest_dirs_ext (pre ++ [n]) cs e h
        exact Or.inr ⟨suf, by simpa [nodeName] using hsuf⟩

theorem entriesForest_shape (pre : List (List Char)) (ts : FSForest) (e : Entry)
    (h : e ∈ entriesForest pre ts) :
    ∃ nm, nm ∈ namesForest ts ∧
      ((e.dirs = pre ∧ e.ename = nm) ∨ ∃ suf, e.dirs = pre ++ nm :: suf) :=
  match ts, h with
  | .cons t ts, h => by
      simp only [entriesForest, List.mem_append] at h
      rcases h with h | h
      · exact ⟨nodeName t, by simp [namesForest], entriesTree_shape pre t e h⟩
      · obtain ⟨nm, hnm, hsh⟩ := entriesForest_shape pre ts e h
        exact ⟨nm, by simp [namesForest, hnm], hsh⟩

mutual
theorem nodup_entriesTree (pre : List (List Char)) (t : FSTree)
    (hwf : wfTree t = true) : (entriesTree pre t).Nodup :=
  match t, hwf with
  | .file n, _ => by simp [entriesTree]
  | .dir n cs, hwf => by
      simp only [entriesTree]
      refine List.nodup_cons.mpr
        ⟨?_, nodup_entriesForest (pre ++ [n]) cs (by simpa [wfTree] using hwf)⟩
      intro hmem
      obtain ⟨suf, hsuf⟩ := entriesForest_dirs_ext (pre ++ [n]) cs _ hmem
      simp at hsuf
theorem nodup_entriesForest (pre : List (List Char)) (ts : FSForest)
    (hwf : wfForest ts = true) : (entriesForest pre ts).Nodup :=
  match ts, hwf with
  | .nil, _ => by simp [entriesForest]
  | .cons t ts, hwf => by
      simp only [wfForest, Bool.and_eq_true, decide_eq_true_eq] at hwf
      obtain ⟨⟨hwt, hwts⟩, hfresh⟩ := hwf
      simp only [entriesForest]
      refine List.Nodup.append (nodup_entriesTree pre t hwt)
        (nodup_entriesForest pre ts hwts) ?_
      intro e he1 he2
      have hsh1 := entriesTree_shape pre t e he1
      obtain ⟨nm, hnm, hsh2⟩ := entriesForest_shape pre ts e he2
      have hne : nodeName t = nm := by
        rcases hsh1 with ⟨hd1, hn1⟩ | ⟨s1, hd1⟩ <;>
          rcases hsh2 with ⟨hd2, hn2⟩ | ⟨s2, hd2⟩
        · rw [← hn1, hn2]
        · rw [hd1] at hd2
          exact absurd hd2.symm (by simp)
        · rw [hd2] at hd1
          exact absurd hd1.symm (by simp)
        · rw [hd1] at hd2
          have h3 := List.append_cancel_left hd2
          injection h3 with h4 _
      rw [hne] at hfresh
      exact hfresh hnm
end

def jsonChars : List Char := ['j', 's', 'o', 'n']

/-- Basename match for the glob `*[!json]`: nonempty, and the last
character is none of `j`, `s`, `o`, `n`. -/
def matchesRglobPat (n : List Char) : Bool :=
  match n.getLast? with
  | none => false
  | some c => !(jsonChars.contains c)

/-- The exclusion-name pattern the discovery loop implements: a name is
excluded iff it fails the `*[!json]` glob or starts with `Supplemental`. -/
def excludedName (n : List Char) : Bool :=
  !(matchesRglobPat n) || leadsWith supplementalW n

/-- The pushes of the discovery loop of `main` (lines 386, 403-412):
the `*[!json]` glob over the strict descendants of the root, then skip
non-files and `Supplemental*` names; everything else is pushed. -/
def discovered (children : FSForest) : List Entry :=
  ((entriesForest [] children).filter fun e => matchesRglobPat e.ename).filter
    fun e => e.isFile && !(leadsWith supplementalW e.ename)

/-- C6: on a well-formed tree (distinct sibling names), the discovery
loop pushes an entry iff it is a file reachable in the tree whose name is
not excluded, and pushes each such file exactly once (the push list has
no duplicates). -/
theorem discoverer_exact (children : FSForest) (hwf : wfForest children = true) :
    (∀ e : Entry, e ∈ discovered children ↔
      (hasEntryForest children e.dirs e.ename e.isFile = true ∧
        e.isFile = true ∧ excludedName e.ename = false)) ∧
    (discovered children).Nodup := by
  constructor
  · intro e
    have hm : e ∈ entriesForest [] children ↔
        hasEntryForest children e.dirs e.ename e.isFile = true := by
      simpa using mem_entriesForest children [] e.dirs e.ename e.isFile
    simp only [discovered, List.mem_filter, Bool.and_eq_true, Bool.not_eq_true']
    constructor
    · rintro ⟨⟨hmem, hglob⟩, hfile, hsup⟩
      exact ⟨hm.mp hmem, hfile, by simp [excludedName, hglob, hsup]⟩
    · rintro ⟨hhas, hfile, hexc⟩
      have h2 : matchesRglobPat e.ename = true ∧
          leadsWith supplementalW e.ename = false := by
        simpa [excludedName] using hexc
      exact ⟨⟨hm.mpr hhas, h2.1⟩, hfile, h2.2⟩
  · exact ((nodup_entriesForest [] children hwf).filter _).filter _

def sampleForest : FSForest :=
  .cons (.dir ['r', 'u', 'n', '1']
      (.cons (.file ['d', 'a', 't', 'a', '.', 'r', 'o', 'o', 't'])
        (.cons (.file ['d', 'a', 't', 'a', '.', 'r', 'o', 'o', 't', '.', 'j', 's', 'o', 'n'])
          .nil)))
    (.cons (.file ['S', 'u', 'p', 'p', 'l', 'e', 'm', 'e', 'n', 't', 'a', 'l', '.', 'r',
        'o', 'o', 't'])
      .nil)

theorem discoverer_exact_witness :
    wfForest sampleForest = true ∧
    ((∀ e : Entry, e ∈ discovered sampleForest ↔
       (hasEntryForest sampleForest e.dirs e.ename e.isFile = true ∧
         e.isFile = true ∧ excludedName e.ename = false)) ∧
     (discovered sampleForest).Nodup) :=
  ⟨by decide, discoverer_exact sampleForest (by decide)⟩
